import Mathlib

/-!
# Verification of the JLLVM test-harness configuration

The repository's test harness is configured in `tests/lit.cfg.py` (plus the
driver stub `tests/jllvm-lit.py`).  The configuration declares a tool list, an
ordered list of tool search directories, a substitution table, a suffix
allow-list, an exclude list and an isolated execution environment; the engine
that consumes these (tool resolution, command substitution, test discovery,
test execution) is described by the specification.  Below, the parts of that
engine that are not part of the repository's own sources are modelled from the
spec (each such definition says so in its doc comment); the concrete tables
and environment edits of `lit.cfg.py` are embedded directly.
-/

namespace JLLVM

/-! ## Tool Resolver

Modelled from the spec, §4.1: `resolve(name, searchDirs, explicitPath?)`.
A directory is abstracted as its path plus the listing of executable file
names it contains (the spec's "directory-listing abstraction"). -/

/-- A candidate search directory: its path and the names of the executable
files it contains. -/
structure Dir where
  path : String
  executables : List String
deriving DecidableEq

/-- Whether directory `d` contains an executable file named `name`. -/
def hasExec (d : Dir) (name : String) : Bool :=
  d.executables.contains name

/-- Modelled from the spec: the Tool Resolver.  If an explicit path is
supplied it is returned verbatim, without consulting the search directories
and without checking existence; otherwise the search directories are scanned
in order and the first directory containing an executable named `name`
determines the result; `none` is `NotFound`. -/
def resolve (name : String) (searchDirs : List Dir) (explicitPath : Option String) :
    Option String :=
  match explicitPath with
  | some p => some p
  | none =>
    match searchDirs.find? (fun d => hasExec d name) with
    | some d => some (d.path ++ "/" ++ name)
    | none => none

/-- The ordered tool search directories of `lit.cfg.py` (`tool_dirs`):
jllvm's own tools dir first, then the LLVM tools dir, then `java_home`.
The directory listings are parameters (the filesystem state). -/
def toolDirs (jllvmTools llvmTools javaHome : Dir) : List Dir :=
  [jllvmTools, llvmTools, javaHome]

/-- C1: the resolver returns the executable found in the first directory of
the search list that contains one; directories listed earlier win. -/
theorem resolve_first_match (name : String) (pre : List Dir) (d : Dir) (post : List Dir)
    (hpre : ∀ d' ∈ pre, hasExec d' name = false) (hd : hasExec d name = true) :
    resolve name (pre ++ d :: post) none = some (d.path ++ "/" ++ name) := by
  unfold resolve
  have hfind : (pre ++ d :: post).find? (fun d' => hasExec d' name) = some d := by
    induction pre with
    | nil => simp [List.find?_cons, hd]
    | cons a as ih =>
      have ha : hasExec a name = false := hpre a (List.mem_cons_self a as)
      simp only [List.cons_append, List.find?_cons, ha]
      exact ih (fun d' hmem => hpre d' (List.mem_cons_of_mem a hmem))
  simp [hfind]

/-- Witness for C1: with the tool present in both the first and the second
directory, the path under the first is returned. -/
theorem resolve_first_match_witness :
    resolve "jllvm" (([] : List Dir) ++
        (Dir.mk "/build/bin" ["jllvm"]) :: [Dir.mk "/usr/bin" ["jllvm"]]) none =
      some ("/build/bin" ++ "/" ++ "jllvm") :=
  resolve_first_match "jllvm" [] (Dir.mk "/build/bin" ["jllvm"])
    [Dir.mk "/usr/bin" ["jllvm"]] (by intro d' h; cases h) (by decide)

/-- A logical tool declared by the configuration: canonical name, fixed extra
arguments always appended to invocations, and an optional explicit path that
bypasses search-directory resolution (spec §3 `ToolSpec`; `lit.cfg.py` line
70-74 `tools`). -/
structure ToolSpec where
  name : String
  extraArgs : List String
  explicitPath : Option String
deriving DecidableEq

/-- Outcome of a configuration step: either a value or a fatal configuration
error (spec §7: configuration errors are fatal to the harness run as a whole
and are distinct from per-test failures). -/
inductive ConfigResult (α : Type) where
  | ok (val : α)
  | configError (msg : String)

/-- Whether a configuration outcome is a fatal configuration error. -/
def ConfigResult.isError {α : Type} : ConfigResult α → Bool
  | .ok _ => false
  | .configError _ => true

/-- The command a resolved tool expands to: the resolved path followed by the
fixed extra arguments, space-separated. -/
def expansionOf (p : String) (args : List String) : String :=
  args.foldl (fun acc a => acc ++ " " ++ a) p

/-- Modelled from the spec: building the tool substitutions
(`llvm_config.add_tool_substitutions(tools, tool_dirs)`).  Each tool is
resolved against the search directories; a tool that resolves to `NotFound`
is surfaced as a hard configuration error, and no substitution table (in
particular no silent empty-string substitution) is produced at all. -/
def buildToolSubstitutions (tools : List ToolSpec) (dirs : List Dir) :
    ConfigResult (List (String × String)) :=
  match tools with
  | [] => .ok []
  | t :: ts =>
    match resolve t.name dirs t.explicitPath with
    | none => .configError ("tool not found: " ++ t.name)
    | some p =>
      match buildToolSubstitutions ts dirs with
      | .ok rest => .ok ((t.name, expansionOf p t.extraArgs) :: rest)
      | .configError m => .configError m

/-- Modelled from the spec: a harness run first builds the tool substitution
table, then (only if that succeeded) executes every test against the table;
configuration errors halt before any test executes (spec §7 propagation
policy). -/
def harnessRun {τ : Type} (tools : List ToolSpec) (dirs : List Dir)
    (tests : List τ) (runOne : List (String × String) → τ → Bool) :
    ConfigResult (List Bool) :=
  match buildToolSubstitutions tools dirs with
  | .configError m => .configError m
  | .ok table => .ok (tests.map (runOne table))

/-- If every search directory lacks an executable named `name`, resolution
without an explicit path yields `NotFound`. -/
theorem resolve_eq_none_of_absent (name : String) (dirs : List Dir)
    (h : ∀ d ∈ dirs, hasExec d name = false) :
    resolve name dirs none = none := by
  unfold resolve
  have hfind : dirs.find? (fun d => hasExec d name) = none := by
    rw [List.find?_eq_none]
    intro d hd
    simp [h d hd]
  simp [hfind]

/-- C3: if some declared tool has no explicit-path override and no search
directory contains a matching executable, the harness run is a fatal
configuration error: no test executes and no substitution table (hence no
silent empty-string substitution) is ever registered. -/
theorem harnessRun_configError_of_tool_notFound {τ : Type} (tools : List ToolSpec)
    (dirs : List Dir) (tests : List τ)
    (runOne : List (String × String) → τ → Bool) (t : ToolSpec)
    (hmem : t ∈ tools) (hexp : t.explicitPath = none)
    (habsent : ∀ d ∈ dirs, hasExec d t.name = false) :
    (harnessRun tools dirs tests runOne).isError = true := by
  have hbuild : (buildToolSubstitutions tools dirs).isError = true := by
    induction tools with
    | nil => cases hmem
    | cons t0 ts ih =>
      unfold buildToolSubstitutions
      rcases List.mem_cons.mp hmem with heq | htail
      · subst heq
        rw [hexp, resolve_eq_none_of_absent t.name dirs habsent]
        rfl
      · cases hr : resolve t0.name dirs t0.explicitPath with
        | none => rfl
        | some p =>
          have := ih htail
          cases hb : buildToolSubstitutions ts dirs with
          | ok rest => rw [hb] at this; cases this
          | configError m => rfl
  unfold harnessRun
  cases hb : buildToolSubstitutions tools dirs with
  | ok table => rw [hb] at hbuild; cases hbuild
  | configError m => rfl

/-- Witness for C3: the tool `jllvm` with no explicit path and absent from
the only search directory makes the harness run fail as a configuration
error before any test executes. -/
theorem harnessRun_configError_witness :
    (harnessRun [ToolSpec.mk "jllvm" [] none] [Dir.mk "/usr/bin" ["javac"]]
      [0] (fun _ _ => true)).isError = true :=
  harnessRun_configError_of_tool_notFound [ToolSpec.mk "jllvm" [] none]
    [Dir.mk "/usr/bin" ["javac"]] [0] (fun _ _ => true)
    (ToolSpec.mk "jllvm" [] none) (List.mem_singleton.mpr rfl) rfl
    (by intro d hd; rcases List.mem_singleton.mp hd with h; subst h; decide)

/-- C2: a ToolSpec with an explicit path resolves to that path verbatim, for
every search-directory list and every path, in particular when an executable
of the same name exists in every search directory, and with no check that the
explicit path exists. -/
theorem resolve_explicit_path_bypass (name : String) (searchDirs : List Dir)
    (p : String) :
    resolve name searchDirs (some p) = some p :=
  rfl

/-! ## Substitution Table

Modelled from the spec, §4.2: `register(token, expansion)` appends to an
ordered list (the table below is that list, earliest registration first,
later registrations winning ties); `expand(commandText)` scans the input once
and replaces the longest registered token matching at each position.
Command text is a list of characters. -/

/-- Command text and tokens are character lists. -/
abbrev Str := List Char

/-- Modelled from the spec: the longest registered token (with its expansion)
matching at the start of `s`.  The table is in registration order; among
matches of equal length the later-registered entry wins (spec §3: when two
substitutions share a token, the later-registered one wins). -/
def longestMatch (s : Str) : List (Str × Str) → Option (Str × Str)
  | [] => none
  | (t, e) :: rest =>
    match longestMatch s rest with
    | none => if t ≠ [] ∧ t <+: s then some (t, e) else none
    | some (bt, be) =>
      if t ≠ [] ∧ t <+: s ∧ bt.length < t.length then some (t, e)
      else some (bt, be)

/-- Modelled from the spec: one left-to-right scan of the input, replacing at
each position the longest registered token matching there; characters that
begin no registered token are copied verbatim.  The `Nat` argument is
recursion fuel; it is always instantiated with the input length, which
suffices because every replaced token is nonempty. -/
def expandF (table : List (Str × Str)) : Nat → Str → Str
  | _, [] => []
  | 0, s => s
  | fuel + 1, c :: rest =>
    match longestMatch (c :: rest) table with
    | some (t, e) => e ++ expandF table fuel (List.drop (t.length - 1) rest)
    | none => c :: expandF table fuel rest

/-- Modelled from the spec: one application pass of `expand(commandText)`
(spec §4.2) — the single left-to-right scan.  The iterative resolution of
nested references, with its iteration cap, is `expandFull` below. -/
def expand (table : List (Str × Str)) (s : Str) : Str :=
  expandF table s.length s

/-- A successful `longestMatch` returns a registered, nonempty token that
matches at the start of the input. -/
theorem longestMatch_sound (s : Str) (table : List (Str × Str)) :
    ∀ bt be : Str, longestMatch s table = some (bt, be) →
      (bt, be) ∈ table ∧ bt ≠ [] ∧ bt <+: s := by
  induction table with
  | nil => intro bt be h; cases h
  | cons p rest ih =>
    obtain ⟨t, e⟩ := p
    intro bt be h
    unfold longestMatch at h
    cases hr : longestMatch s rest with
    | none =>
      rw [hr] at h
      dsimp only at h
      by_cases hc : t ≠ [] ∧ t <+: s
      · rw [if_pos hc] at h
        injection h with h
        injection h with h1 h2
        subst h1; subst h2
        exact ⟨List.mem_cons_self _ _, hc.1, hc.2⟩
      · rw [if_neg hc] at h; cases h
    | some q =>
      obtain ⟨bt0, be0⟩ := q
      rw [hr] at h
      dsimp only at h
      have hrest := ih bt0 be0 hr
      by_cases hc : t ≠ [] ∧ t <+: s ∧ bt0.length < t.length
      · rw [if_pos hc] at h
        injection h with h
        injection h with h1 h2
        subst h1; subst h2
        exact ⟨List.mem_cons_self _ _, hc.1, hc.2.1⟩
      · rw [if_neg hc] at h
        injection h with h
        injection h with h1 h2
        subst h1; subst h2
        exact ⟨List.mem_cons_of_mem _ hrest.1, hrest.2.1, hrest.2.2⟩

/-- If `(tok, exp)` is registered, matches at the start of `s`, and every
other registered match at that position is strictly shorter, then
`longestMatch` picks exactly `(tok, exp)`. -/
theorem longestMatch_dominant (s : Str) (table : List (Str × Str)) (tok exp : Str)
    (hmem : (tok, exp) ∈ table) (hne : tok ≠ []) (hpre : tok <+: s)
    (hdom : ∀ t e, (t, e) ∈ table → t ≠ [] → t <+: s →
      t.length < tok.length ∨ (t = tok ∧ e = exp)) :
    longestMatch s table = some (tok, exp) := by
  induction table with
  | nil => cases hmem
  | cons p rest ih =>
    obtain ⟨t, e⟩ := p
    by_cases hmemr : (tok, exp) ∈ rest
    · have hr : longestMatch s rest = some (tok, exp) :=
        ih hmemr (fun t' e' hq => hdom t' e' (List.mem_cons_of_mem _ hq))
      unfold longestMatch
      rw [hr]
      dsimp only
      have hc : ¬(t ≠ [] ∧ t <+: s ∧ tok.length < t.length) := by
        rintro ⟨ht1, ht2, ht3⟩
        rcases hdom t e (List.mem_cons_self _ _) ht1 ht2 with hlt | heq
        · omega
        · obtain ⟨rfl, rfl⟩ := heq
          omega
      rw [if_neg hc]
    · have heq : t = tok ∧ e = exp := by
        rcases List.mem_cons.mp hmem with h | h
        · injection h.symm with h1 h2
          exact ⟨h1, h2⟩
        · exact absurd h hmemr
      obtain ⟨rfl, rfl⟩ := heq
      unfold longestMatch
      cases hr : longestMatch s rest with
      | none => dsimp only; rw [if_pos ⟨hne, hpre⟩]
      | some q =>
        obtain ⟨bt0, be0⟩ := q
        have hs := longestMatch_sound s rest bt0 be0 hr
        have hlt : bt0.length < t.length := by
          rcases hdom bt0 be0 (List.mem_cons_of_mem _ hs.1) hs.2.1 hs.2.2 with h | h
          · exact h
          · obtain ⟨rfl, rfl⟩ := h
            exact absurd hs.1 hmemr
        dsimp only
        rw [if_pos ⟨hne, hpre, hlt⟩]

/-- The fuel argument of `expandF` is irrelevant once it covers the input
length. -/
theorem expandF_fuel (table : List (Str × Str)) :
    ∀ f1 f2 s, s.length ≤ f1 → s.length ≤ f2 →
      expandF table f1 s = expandF table f2 s := by
  intro f1
  induction f1 with
  | zero =>
    intro f2 s h1 _
    cases s with
    | nil => cases f2 <;> rfl
    | cons c rest => simp at h1
  | succ f1 ih =>
    intro f2 s h1 h2
    cases s with
    | nil => cases f2 <;> rfl
    | cons c rest =>
      cases f2 with
      | zero => simp at h2
      | succ f2 =>
        show (match longestMatch (c :: rest) table with
          | some (t, e) => e ++ expandF table f1 (List.drop (t.length - 1) rest)
          | none => c :: expandF table f1 rest) =
          (match longestMatch (c :: rest) table with
          | some (t, e) => e ++ expandF table f2 (List.drop (t.length - 1) rest)
          | none => c :: expandF table f2 rest)
        cases hm : longestMatch (c :: rest) table with
        | none =>
          simp only
          rw [ih f2 rest (by simpa using Nat.lt_succ_iff.mp (Nat.lt_of_lt_of_le (Nat.lt_succ_self _) h1)) (by simp at h2; omega)]
        | some q =>
          obtain ⟨t, e⟩ := q
          simp only
          have hd1 : (List.drop (t.length - 1) rest).length ≤ f1 := by
            simp only [List.length_drop]
            simp at h1; omega
          have hd2 : (List.drop (t.length - 1) rest).length ≤ f2 := by
            simp only [List.length_drop]
            simp at h2; omega
          rw [ih f2 _ hd1 hd2]

/-- C4: `expand` replaces, at each position of its single scan, the longest
registered token matching there: if the input starts with a registered token
`tok` and every other registered token matching at that position is strictly
shorter, the result is `tok`'s expansion followed by the expansion of the
rest — in particular, with `%X%` and `%XY%` both registered, expanding
`%XY%` applies the `%XY%` substitution, never `%X%` followed by a literal. -/
theorem expand_longest_match_step (table : List (Str × Str)) (tok exp rest : Str)
    (hmem : (tok, exp) ∈ table) (hne : tok ≠ [])
    (hdom : ∀ t e, (t, e) ∈ table → t ≠ [] → t <+: (tok ++ rest) →
      t.length < tok.length ∨ (t = tok ∧ e = exp)) :
    expand table (tok ++ rest) = exp ++ expand table rest := by
  cases tok with
  | nil => exact absurd rfl hne
  | cons c ct =>
    have hpre : (c :: ct) <+: ((c :: ct) ++ rest) := List.prefix_append _ _
    have hlm : longestMatch ((c :: ct) ++ rest) table = some (c :: ct, exp) :=
      longestMatch_dominant _ table _ exp hmem hne hpre hdom
    show expandF table ((c :: ct) ++ rest).length ((c :: ct) ++ rest) = _
    have hlen : ((c :: ct) ++ rest).length = (ct ++ rest).length + 1 := by simp
    rw [hlen]
    show (match longestMatch (c :: (ct ++ rest)) table with
      | some (t, e) => e ++ expandF table (ct ++ rest).length (List.drop (t.length - 1) (ct ++ rest))
      | none => c :: expandF table (ct ++ rest).length (ct ++ rest)) = _
    have hlm' : longestMatch (c :: (ct ++ rest)) table = some (c :: ct, exp) := hlm
    rw [hlm']
    simp only
    have hdrop : List.drop ((c :: ct).length - 1) (ct ++ rest) = rest := by
      simp only [List.length_cons, Nat.add_sub_cancel]
      exact List.drop_left ct rest
    rw [hdrop]
    rw [expandF_fuel table (ct ++ rest).length rest.length rest (by simp) (le_refl _)]
    rfl

/-- Witness for C4: with tokens `%X%` and `%XY%` both registered, expanding
the text `%XY%` applies the `%XY%` substitution. -/
theorem expand_longest_match_step_witness :
    expand [("%X%".data, "ex".data), ("%XY%".data, "wy".data)]
        ("%XY%".data ++ []) =
      "wy".data ++ expand [("%X%".data, "ex".data), ("%XY%".data, "wy".data)] [] :=
  expand_longest_match_step [("%X%".data, "ex".data), ("%XY%".data, "wy".data)]
    "%XY%".data "wy".data [] (by decide) (by decide)
    (by
      intro t e hm h1 h2
      simp only [List.mem_cons, List.not_mem_nil, or_false, Prod.mk.injEq] at hm
      rcases hm with ⟨rfl, rfl⟩ | ⟨rfl, rfl⟩
      · exact absurd h2 (by decide)
      · exact Or.inr ⟨rfl, rfl⟩)

/-- Modelled from the spec: the single scan of `expand`, checking instead of
replacing — every position either starts a registered token (which the scan
consumes whole) or carries a character that is not a placeholder marker
(`%`).  This is "every token present in the input is registered",
operationalised by the same scan `expand` performs. -/
def tokensRegF (table : List (Str × Str)) : Nat → Str → Bool
  | _, [] => true
  | 0, _ => false
  | fuel + 1, c :: rest =>
    match longestMatch (c :: rest) table with
    | some (t, _) => tokensRegF table fuel (List.drop (t.length - 1) rest)
    | none => (c != '%') && tokensRegF table fuel rest

/-- Every placeholder token occurring in `s` is registered in `table`. -/
def tokensAllRegistered (table : List (Str × Str)) (s : Str) : Bool :=
  tokensRegF table s.length s

/-- Expansion step for the checked scan: if every token in the input is
registered and no registered expansion contains a placeholder marker, the
expanded output contains no `%`. -/
theorem expandF_no_residual (table : List (Str × Str))
    (hclean : ∀ p ∈ table, '%' ∉ p.2) :
    ∀ fuel s, s.length ≤ fuel → tokensRegF table fuel s = true →
      '%' ∉ expandF table fuel s := by
  intro fuel
  induction fuel with
  | zero =>
    intro s hle _
    cases s with
    | nil => simp [expandF]
    | cons c rest => simp at hle
  | succ fuel ih =>
    intro s hle hreg
    cases s with
    | nil => simp [expandF]
    | cons c rest =>
      show '%' ∉ (match longestMatch (c :: rest) table with
        | some (t, e) => e ++ expandF table fuel (List.drop (t.length - 1) rest)
        | none => c :: expandF table fuel rest)
      have hreg' : (match longestMatch (c :: rest) table with
        | some (t, _) => tokensRegF table fuel (List.drop (t.length - 1) rest)
        | none => (c != '%') && tokensRegF table fuel rest) = true := hreg
      cases hm : longestMatch (c :: rest) table with
      | some q =>
        obtain ⟨t, e⟩ := q
        rw [hm] at hreg'
        dsimp only at hreg' ⊢
        have hmem := (longestMatch_sound (c :: rest) table t e hm).1
        intro hin
        rcases List.mem_append.mp hin with hin | hin
        · exact hclean (t, e) hmem hin
        · have hdl : (List.drop (t.length - 1) rest).length ≤ fuel := by
            simp only [List.length_drop]
            simp at hle; omega
          exact ih _ hdl hreg' hin
      | none =>
        rw [hm] at hreg'
        dsimp only at hreg' ⊢
        have hsplit := Bool.and_eq_true_iff.mp hreg'
        intro hin
        rcases List.mem_cons.mp hin with hin | hin
        · have : (c != '%') = true := hsplit.1
          rw [bne_iff_ne] at this
          exact this hin.symm
        · have hrl : rest.length ≤ fuel := by simp at hle; omega
          exact ih rest hrl hsplit.2 hin

/-! ## The substitution table built by `lit.cfg.py`

`lit.cfg.py` registers, in this order: `%PATH%` (line 44), the tool
substitutions (lines 70-76: `jllvm` with the extra argument
`%{JLLVM_EXTRA_ARGS}`, `jllvm-jvmc`, `javac`, and `jasmin` as the composed
command `java -jar <jasmin_src>/jasmin.jar`), and finally
`%{JLLVM_EXTRA_ARGS}` itself (line 83).  The resolved tool paths and
configuration values are parameters. -/

/-- Whether `pat` occurs as a contiguous substring of `s`. -/
def containsSub (pat : Str) : Str → Bool
  | [] => pat.isEmpty
  | c :: rest => pat.isPrefixOf (c :: rest) || containsSub pat rest

/-- The substitution table registered by `lit.cfg.py`, in registration
order, with resolved paths and configuration values as parameters. -/
def jllvmConfigTable (pathEnv jllvmPath jvmcPath javacPath javaPath jasminSrc : String) :
    List (Str × Str) :=
  [("%PATH%".data, pathEnv.data),
   ("jllvm".data, (jllvmPath ++ " %{JLLVM_EXTRA_ARGS}").data),
   ("jllvm-jvmc".data, jvmcPath.data),
   ("javac".data, javacPath.data),
   ("jasmin".data, (javaPath ++ " -jar " ++ jasminSrc ++ "/jasmin.jar").data),
   ("%{JLLVM_EXTRA_ARGS}".data, "".data)]

/-- A concrete instantiation of the table `lit.cfg.py` builds. -/
def jllvmTableInstance : List (Str × Str) :=
  jllvmConfigTable "/usr/bin:/bin" "/build/bin/jllvm" "/build/bin/jllvm-jvmc"
    "/usr/bin/javac" "/jdk/bin/java" "/src/jasmin"

/-- Whether some nonempty registered token occurs anywhere in `s`. -/
def hasRegisteredToken (table : List (Str × Str)) (s : Str) : Bool :=
  table.any (fun p => !p.1.isEmpty && containsSub p.1 s)

/-- Modelled from the spec: iterate the single-scan pass while a registered
token still appears in the output, up to the given iteration cap. -/
def expandIterF (table : List (Str × Str)) : Nat → Str → Str
  | 0, s => s
  | k + 1, s =>
    if hasRegisteredToken table s then expandIterF table k (expand table s)
    else s

/-- Modelled from the spec: the full expansion, iteration cap equal to the
table size. -/
def expandFull (table : List (Str × Str)) (s : Str) : Str :=
  expandIterF table table.length s

/-- Modelled from the spec: after full expansion the harness checks for
residual placeholder markers; a leftover marker is a configuration error,
distinct from a test failure. -/
def expandFullChecked (table : List (Str × Str)) (s : Str) : ConfigResult Str :=
  if '%' ∈ expandFull table s then .configError "unresolved placeholder token"
  else .ok (expandFull table s)

/-- A single pass over marker-free input yields marker-free output as long
as every registered expansion is marker-free. -/
theorem expandF_no_marker (table : List (Str × Str))
    (hclean : ∀ p ∈ table, '%' ∉ p.2) :
    ∀ fuel s, '%' ∉ s → '%' ∉ expandF table fuel s := by
  intro fuel
  induction fuel with
  | zero =>
    intro s hs
    cases s with
    | nil => simp [expandF]
    | cons c rest => exact hs
  | succ fuel ih =>
    intro s hs
    cases s with
    | nil => simp [expandF]
    | cons c rest =>
      show '%' ∉ (match longestMatch (c :: rest) table with
        | some (t, e) => e ++ expandF table fuel (List.drop (t.length - 1) rest)
        | none => c :: expandF table fuel rest)
      cases hm : longestMatch (c :: rest) table with
      | some q =>
        obtain ⟨t, e⟩ := q
        dsimp only
        intro hin
        rcases List.mem_append.mp hin with hin | hin
        · exact hclean (t, e) (longestMatch_sound (c :: rest) table t e hm).1 hin
        · exact ih _
            (fun hc => hs (List.mem_cons_of_mem c (List.drop_subset _ _ hc))) hin
      | none =>
        dsimp only
        intro hin
        rcases List.mem_cons.mp hin with hin | hin
        · exact hs (hin ▸ List.mem_cons_self _ _)
        · exact ih rest (fun hc => hs (List.mem_cons_of_mem c hc)) hin

/-- A nonempty pattern matching at the head of `s` occurs in `s`. -/
theorem containsSub_of_head_match (pat s : Str) (hne : pat ≠ []) (hp : pat <+: s) :
    containsSub pat s = true := by
  cases s with
  | nil => exact absurd (List.prefix_nil.mp hp) hne
  | cons c rest =>
    show (pat.isPrefixOf (c :: rest) || containsSub pat rest) = true
    rw [List.isPrefixOf_iff_prefix.mpr hp]
    rfl

/-- Occurrence in a tail is occurrence in the whole list. -/
theorem containsSub_cons (pat : Str) (c : Char) (rest : Str)
    (h : containsSub pat rest = true) : containsSub pat (c :: rest) = true := by
  show (pat.isPrefixOf (c :: rest) || containsSub pat rest) = true
  rw [h, Bool.or_true]

/-- If no registered token occurs in `c :: rest`, none occurs in `rest`. -/
theorem hasRegisteredToken_tail (table : List (Str × Str)) (c : Char) (rest : Str)
    (h : hasRegisteredToken table (c :: rest) = false) :
    hasRegisteredToken table rest = false := by
  by_contra hne
  rw [Bool.not_eq_false] at hne
  obtain ⟨p, hp, hcond⟩ := List.any_eq_true.mp hne
  have hsplit := Bool.and_eq_true_iff.mp hcond
  have : hasRegisteredToken table (c :: rest) = true :=
    List.any_eq_true.mpr
      ⟨p, hp, Bool.and_eq_true_iff.mpr ⟨hsplit.1, containsSub_cons _ _ _ hsplit.2⟩⟩
  rw [this] at h
  cases h

/-- An input whose scan-check passes while no registered token occurs in it
at all contains no placeholder marker. -/
theorem scan_no_token_no_marker (table : List (Str × Str)) :
    ∀ fuel s, s.length ≤ fuel → tokensRegF table fuel s = true →
      hasRegisteredToken table s = false → '%' ∉ s := by
  intro fuel
  induction fuel with
  | zero =>
    intro s hle _ _
    cases s with
    | nil => simp
    | cons c rest => simp at hle
  | succ fuel ih =>
    intro s hle hreg hno
    cases s with
    | nil => simp
    | cons c rest =>
      have hreg' : (match longestMatch (c :: rest) table with
        | some (t, _) => tokensRegF table fuel (List.drop (t.length - 1) rest)
        | none => (c != '%') && tokensRegF table fuel rest) = true := hreg
      cases hm : longestMatch (c :: rest) table with
      | some q =>
        obtain ⟨t, e⟩ := q
        have hs := longestMatch_sound (c :: rest) table t e hm
        have htne : (!t.isEmpty) = true := by
          cases t with
          | nil => exact absurd rfl hs.2.1
          | cons a as => rfl
        have : hasRegisteredToken table (c :: rest) = true :=
          List.any_eq_true.mpr ⟨(t, e), hs.1, Bool.and_eq_true_iff.mpr
            ⟨htne, containsSub_of_head_match t (c :: rest) hs.2.1 hs.2.2⟩⟩
        rw [this] at hno
        cases hno
      | none =>
        rw [hm] at hreg'
        dsimp only at hreg'
        have hsplit := Bool.and_eq_true_iff.mp hreg'
        intro hin
        rcases List.mem_cons.mp hin with hin | hin
        · have hcne : (c != '%') = true := hsplit.1
          rw [bne_iff_ne] at hcne
          exact hcne hin.symm
        · exact ih rest (by simp at hle; omega) hsplit.2
            (hasRegisteredToken_tail table c rest hno) hin

/-- Iterating the pass preserves marker-freeness when every registered
expansion is marker-free. -/
theorem expandIterF_no_marker (table : List (Str × Str))
    (hclean : ∀ p ∈ table, '%' ∉ p.2) :
    ∀ k s, '%' ∉ s → '%' ∉ expandIterF table k s := by
  intro k
  induction k with
  | zero => intro s hs; exact hs
  | succ k ih =>
    intro s hs
    show '%' ∉ (if hasRegisteredToken table s then expandIterF table k (expand table s) else s)
    by_cases hr : hasRegisteredToken table s = true
    · rw [if_pos hr]
      exact ih _ (expandF_no_marker table hclean s.length s hs)
    · rw [if_neg hr]
      exact hs

/-- Counterexample to C6: on the table the harness itself builds, the
command text `jllvm Main.class` — in which the only occurring placeholder
token, `jllvm`, is registered — still carries a residual `%` marker after
the full iteration-capped expansion, because the `jllvm` expansion nests
`%{JLLVM_EXTRA_ARGS}` and its resolved path re-contains the token `jllvm`
(an accidental cycle, cut off at the cap); the harness reports this as a
configuration error. -/
theorem expandFull_residual_on_harness_table :
    tokensAllRegistered jllvmTableInstance "jllvm Main.class".data = true ∧
      '%' ∈ expandFull jllvmTableInstance "jllvm Main.class".data ∧
      (expandFullChecked jllvmTableInstance "jllvm Main.class".data).isError = true := by
  refine ⟨by decide, by decide, by decide⟩

/-- C6 (amended): the full expansion never partially fails — it is total,
and for command text in which every occurring placeholder token is
registered and every registered expansion is itself free of placeholder
markers, it returns a fully concrete string with zero residual placeholder
markers, which the harness's residual check accepts rather than reporting
the configuration error it reports on residual markers. -/
theorem expandFull_no_residual_of_concrete_expansions (table : List (Str × Str))
    (s : Str) (hclean : ∀ p ∈ table, '%' ∉ p.2)
    (hreg : tokensAllRegistered table s = true) :
    '%' ∉ expandFull table s ∧
      expandFullChecked table s = .ok (expandFull table s) := by
  have hmain : '%' ∉ expandFull table s := by
    unfold expandFull
    cases htl : table.length with
    | zero =>
      show '%' ∉ s
      have htab : table = [] := List.length_eq_zero.mp htl
      subst htab
      exact scan_no_token_no_marker [] s.length s (le_refl _) hreg rfl
    | succ m =>
      show '%' ∉ (if hasRegisteredToken table s then expandIterF table m (expand table s) else s)
      by_cases hr : hasRegisteredToken table s = true
      · rw [if_pos hr]
        exact expandIterF_no_marker table hclean m _
          (expandF_no_residual table hclean s.length s (le_refl _) hreg)
      · rw [if_neg hr]
        exact scan_no_token_no_marker table s.length s (le_refl _) hreg
          (Bool.eq_false_iff.mpr hr)
  refine ⟨hmain, ?_⟩
  unfold expandFullChecked
  rw [if_neg hmain]

/-- Witness for C6 (amended): a command line whose only placeholder token
is registered with a marker-free expansion fully expands with no residual
marker and passes the residual check. -/
theorem expandFull_no_residual_of_concrete_expansions_witness :
    '%' ∉ expandFull [("%A%".data, "aval".data)] "run %A% now".data ∧
      expandFullChecked [("%A%".data, "aval".data)] "run %A% now".data =
        .ok (expandFull [("%A%".data, "aval".data)] "run %A% now".data) :=
  expandFull_no_residual_of_concrete_expansions [("%A%".data, "aval".data)]
    "run %A% now".data
    (by
      intro p hm
      simp only [List.mem_singleton] at hm
      subst hm
      decide)
    (by decide)

/-! ## Test Discovery

Modelled from the spec, §4.3: `discover(rootDir, suffixAllowList,
excludeNames)` recursively walks the root, prunes entries whose name is in
the exclude list, and classifies files by suffix allow-list. -/

/-- A filesystem entry: a file, or a directory with its entries. -/
inductive FSEntry where
  | file (name : String)
  | dir (name : String) (entries : List FSEntry)

/-- Whether a file name ends in one of the allowed suffixes. -/
def suffixMatches (sfx : List String) (name : String) : Bool :=
  sfx.any (fun suf => suf.data.isSuffixOf name.data)

mutual

/-- Modelled from the spec: the walk over a single entry.  An entry whose
name is in the exclude list is excluded from traversal entirely; a file is a
test candidate iff its extension is in the allow-list. -/
def discoverEntry (sfx exc : List String) : FSEntry → List String
  | .file n =>
    if exc.contains n then []
    else if suffixMatches sfx n then [n] else []
  | .dir n es =>
    if exc.contains n then [] else discoverEntries sfx exc es

/-- Modelled from the spec: the walk over a directory listing, in order. -/
def discoverEntries (sfx exc : List String) : List FSEntry → List String
  | [] => []
  | e :: es => discoverEntry sfx exc e ++ discoverEntries sfx exc es

end

/-- The suffix allow-list of `lit.cfg.py` (line 36). -/
def jllvmSuffixes : List String := [".java", ".j"]

/-- The exclude list of `lit.cfg.py` (line 55). -/
def jllvmExcludes : List String :=
  ["Inputs", "CMakeLists.txt", "jllvm-lit.py", "lit.cfg.py"]

/-- C7: a directory whose name is in the exclude list contributes zero test
cases wherever it occurs under the root, whatever it contains — it is
pruned from traversal outright, and removing it from any directory listing
does not change the discovered tests. -/
theorem discover_excluded_dir_contributes_nothing (sfx exc : List String)
    (n : String) (es : List FSEntry) (l1 l2 : List FSEntry)
    (h : exc.contains n = true) :
    discoverEntry sfx exc (FSEntry.dir n es) = [] ∧
      discoverEntries sfx exc (l1 ++ FSEntry.dir n es :: l2) =
        discoverEntries sfx exc (l1 ++ l2) := by
  have hdir : discoverEntry sfx exc (FSEntry.dir n es) = [] := by
    unfold discoverEntry
    rw [if_pos h]
  refine ⟨hdir, ?_⟩
  induction l1 with
  | nil =>
    show discoverEntry sfx exc (FSEntry.dir n es) ++ discoverEntries sfx exc l2 =
      discoverEntries sfx exc l2
    rw [hdir]
    rfl
  | cons e l1 ih =>
    show discoverEntry sfx exc e ++ discoverEntries sfx exc (l1 ++ FSEntry.dir n es :: l2) =
      discoverEntry sfx exc e ++ discoverEntries sfx exc (l1 ++ l2)
    rw [ih]

/-- Witness for C7: under the configured exclude list, an `Inputs` directory
containing a `.java` file contributes no test, and discovery of a root
listing containing it equals discovery with it removed. -/
theorem discover_excluded_dir_contributes_nothing_witness :
    discoverEntry jllvmSuffixes jllvmExcludes
        (FSEntry.dir "Inputs" [FSEntry.file "Helper.java"]) = [] ∧
      discoverEntries jllvmSuffixes jllvmExcludes
          ([FSEntry.file "Ok.java"] ++
            FSEntry.dir "Inputs" [FSEntry.file "Helper.java"] :: []) =
        discoverEntries jllvmSuffixes jllvmExcludes ([FSEntry.file "Ok.java"] ++ []) :=
  discover_excluded_dir_contributes_nothing jllvmSuffixes jllvmExcludes
    "Inputs" [FSEntry.file "Helper.java"] [FSEntry.file "Ok.java"] []
    (by decide)

/-! ## Test Executor isolation

Modelled from the spec, §4.4 and §5: each test executes against its own
environment snapshot derived from the Environment Projector and the
read-only configuration; execution of one test does not mutate process-wide
state observable by another. -/

/-- Modelled from the spec: the Environment Projector — copies the
allow-listed ambient variables into an isolated execution environment. -/
def project (allowList : List String) (ambient : List (String × String)) :
    List (String × String) :=
  ambient.filter (fun kv => allowList.contains kv.1)

/-- The read-only per-run configuration: environment allow-list, ambient
variables, and the substitution table. -/
structure HarnessConfig where
  allowList : List String
  ambient : List (String × String)
  table : List (Str × Str)

/-- A discovered test together with its behavior: the pass/fail outcome as a
function of the environment snapshot it is given and the substitution
table. -/
structure TestBehavior where
  name : String
  exec : List (String × String) → List (Str × Str) → Bool

/-- Process-wide mutable state (the ambient process environment). -/
structure ProcState where
  env : List (String × String)

/-- Modelled from the spec: executing one test.  The test receives its own
snapshot derived from the Environment Projector applied to the read-only
configuration — not the current process state — and the process state is
returned unchanged. -/
def runOneTest (cfg : HarnessConfig) (st : ProcState) (t : TestBehavior) :
    Bool × ProcState :=
  (t.exec (project cfg.allowList cfg.ambient) cfg.table, st)

/-- Modelled from the spec: executing a list of tests in order, threading
the process state through. -/
def runSuiteFrom (cfg : HarnessConfig) (st : ProcState) :
    List TestBehavior → List Bool
  | [] => []
  | t :: ts =>
    (runOneTest cfg st t).1 :: runSuiteFrom cfg (runOneTest cfg st t).2 ts

/-- Modelled from the spec: a suite run starting from the initial process
state. -/
def runSuite (cfg : HarnessConfig) (tests : List TestBehavior) : List Bool :=
  runSuiteFrom cfg (ProcState.mk cfg.ambient) tests

/-- The results of a suite run do not depend on the process state it starts
from: every test reads only its projected snapshot. -/
theorem runSuiteFrom_state_independent (cfg : HarnessConfig)
    (ts : List TestBehavior) : ∀ st : ProcState,
    runSuiteFrom cfg st ts =
      ts.map (fun t => t.exec (project cfg.allowList cfg.ambient) cfg.table) := by
  induction ts with
  | nil => intro st; rfl
  | cons t ts ih =>
    intro st
    show (runOneTest cfg st t).1 :: runSuiteFrom cfg (runOneTest cfg st t).2 ts = _
    rw [ih]
    rfl

/-- C8: test results are independent of execution order — running any list
of tests and then `t` yields for `t` exactly the result of running `t`
alone, because each test receives its own isolated snapshot derived from
the Environment Projector and mutates no process-wide state. -/
theorem runSuite_isolation (cfg : HarnessConfig) (ts : List TestBehavior)
    (t : TestBehavior) :
    runSuite cfg (ts ++ [t]) = runSuite cfg ts ++ runSuite cfg [t] := by
  unfold runSuite
  rw [runSuiteFrom_state_independent, runSuiteFrom_state_independent,
    runSuiteFrom_state_independent, List.map_append]

/-! ## Per-test timeout

Modelled from the spec, §5 and §7: a run line that exceeds the configured
wall-clock bound is forcibly terminated and the test is reported as a
failure with a dedicated timeout diagnostic; wall-clock time is modelled by
the number of steps a run line needs to terminate (`none`: it never
terminates). -/

/-- A run line's execution profile: how many time steps it takes to
terminate (`none` if it never does), and its exit code when it does. -/
structure RunLine where
  terminationSteps : Option Nat
  exitCode : Int

/-- The reported outcome of executing one run line: pass, ordinary nonzero
exit, or the dedicated timeout subtype. -/
inductive TestOutcome where
  | pass
  | failExit (code : Int)
  | failTimeout
deriving DecidableEq

/-- Whether an outcome counts as a test failure. -/
def TestOutcome.isFailure : TestOutcome → Bool
  | .pass => false
  | .failExit _ => true
  | .failTimeout => true

/-- Modelled from the spec: executing a run line under a wall-clock bound.
If the run line terminates within the bound its exit code decides
pass/fail; otherwise it is forcibly cut off at the bound and reported with
the dedicated timeout outcome.  The function is total: the harness never
hangs on a non-terminating run line. -/
def runWithTimeout (timeout : Nat) (r : RunLine) : TestOutcome :=
  match r.terminationSteps with
  | none => .failTimeout
  | some n =>
    if n ≤ timeout then
      (if r.exitCode = 0 then .pass else .failExit r.exitCode)
    else .failTimeout

/-- C9: a run line that exceeds the configured timeout — in particular one
that never terminates — is reported, in bounded time, as a failure carrying
the dedicated timeout outcome, which is never equal to an ordinary
nonzero-exit failure. -/
theorem runWithTimeout_reports_timeout (timeout : Nat) (r : RunLine)
    (h : r.terminationSteps = none ∨
      ∃ n, r.terminationSteps = some n ∧ timeout < n) :
    runWithTimeout timeout r = .failTimeout ∧
      (runWithTimeout timeout r).isFailure = true ∧
      ∀ c : Int, runWithTimeout timeout r ≠ .failExit c := by
  have hto : runWithTimeout timeout r = .failTimeout := by
    unfold runWithTimeout
    rcases h with h | ⟨n, hsome, hlt⟩
    · rw [h]
    · rw [hsome]
      dsimp only
      rw [if_neg (by omega)]
  refine ⟨hto, ?_, ?_⟩
  · rw [hto]; rfl
  · intro c
    rw [hto]
    intro hcontra
    cases hcontra

/-- Witness for C9: a run line that never terminates, under a 5-second
timeout, is reported as the dedicated timeout failure. -/
theorem runWithTimeout_reports_timeout_witness :
    runWithTimeout 5 (RunLine.mk none 0) = .failTimeout ∧
      (runWithTimeout 5 (RunLine.mk none 0)).isFailure = true ∧
      ∀ c : Int, runWithTimeout 5 (RunLine.mk none 0) ≠ .failExit c :=
  runWithTimeout_reports_timeout 5 (RunLine.mk none 0) (Or.inl rfl)

/-! ## The execution environment built by `lit.cfg.py`

An environment is a finite map from variable names to values, modelled as a
function `String → Option String` (Python dictionary lookup).  `lit.cfg.py`
edits `config.environment` by: copying the listed system variables from the
ambient environment (lines 46-48), appending the LLVM tools directory to
`PATH` (line 64), and finally setting `FILECHECK_OPTS` unconditionally
(line 81). -/

/-- Environment lookup. -/
def envGet (env : String → Option String) (k : String) : Option String :=
  env k

/-- Environment update (Python dictionary assignment). -/
def envSet (env : String → Option String) (k v : String) :
    String → Option String :=
  fun q => if q = k then some v else env q

/-- Lines 46-48, `llvm_config.with_system_environment(vars)`: copy each
listed variable from the ambient environment into the execution
environment, when present. -/
def copySystemVars (ambient : String → Option String) (vars : List String)
    (env : String → Option String) : String → Option String :=
  vars.foldl (fun acc v =>
    match ambient v with
    | some val => envSet acc v val
    | none => acc) env

/-- Line 64, `llvm_config.with_environment` with `append_path` set: append
a directory to the `PATH` variable. -/
def appendPathVar (env : String → Option String) (k dir : String) :
    String → Option String :=
  match envGet env k with
  | some old => envSet env k (old ++ ":" ++ dir)
  | none => envSet env k dir

/-- The environment edits of `lit.cfg.py`, in program order, ending with
the unconditional assignment of `FILECHECK_OPTS` on line 81. -/
def configEnvironment (base ambient : String → Option String)
    (llvmToolsDir : String) : String → Option String :=
  envSet
    (appendPathVar
      (copySystemVars ambient
        ["HOME", "INCLUDE", "LIB", "TMP", "TEMP", "TSAN_OPTIONS",
         "ASAN_OPTIONS", "UBSAN_OPTIONS"] base)
      "PATH" llvmToolsDir)
    "FILECHECK_OPTS" "-enable-var-scope --allow-unused-prefixes=false"

/-- Modelled from the spec: each executed test receives its own snapshot of
the configured execution environment. -/
def testEnvironment (base ambient : String → Option String)
    (llvmToolsDir : String) (t : TestBehavior) : String → Option String :=
  configEnvironment base ambient llvmToolsDir

/-- C10: for every test executed by the harness, whatever the base and
ambient environments hold (in particular whatever value `FILECHECK_OPTS`
has there, if any), the isolated execution environment maps
`FILECHECK_OPTS` to exactly
`-enable-var-scope --allow-unused-prefixes=false`. -/
theorem testEnvironment_filecheck_opts (base ambient : String → Option String)
    (llvmToolsDir : String) (t : TestBehavior) :
    envGet (testEnvironment base ambient llvmToolsDir t) "FILECHECK_OPTS" =
      some "-enable-var-scope --allow-unused-prefixes=false" := by
  unfold testEnvironment configEnvironment envGet envSet
  rw [if_pos rfl]

end JLLVM
